import Mathlib

/-!
# Verification of the cvec growable-buffer header (src/cvec.h)

Shallow embedding of the `cvec` type-erased dynamic array.  The backing
element storage is modelled as a total byte map `Nat → Nat` (byte offset to
byte value, offsets relative to the handle, i.e. to the first byte of element
storage).  The hidden bookkeeping record (`_internal_cvec_metadata`) becomes
explicit fields of `CvecState`; a `NULL` handle is `Option.none`.

The allocator is modelled by parameters: `cvec_reserve` receives the junk
contents of the freshly `malloc`ed block, and the growth path of
`cvec_push_back` receives the junk bytes that `realloc` exposes past the old
allocation together with the (possibly new) address the reallocated block
gets.  Destructor invocations are observable as a trace: the list of byte
chunks the destructor was called on, in call order.
-/

set_option autoImplicit false

namespace Cvec

/-- `memset(base + off, v, len)` on a byte map. -/
def memset (d : Nat → Nat) (off len v : Nat) : Nat → Nat :=
  fun k => if off ≤ k ∧ k < off + len then v else d k

/-- `memcpy(base + off, src, src.length)` on a byte map, copying the byte
list `src` in. -/
def memcpyIn (d : Nat → Nat) (off : Nat) (src : List Nat) : Nat → Nat :=
  fun k => if off ≤ k ∧ k < off + src.length then src.getD (k - off) 0 else d k

/-- `memmove(base + dst, base + src, len)` on a byte map: the source range is
read before any byte of the destination range is written, which is exactly
memmove's overlap contract. -/
def memmove (d : Nat → Nat) (dst src len : Nat) : Nat → Nat :=
  fun k => if dst ≤ k ∧ k < dst + len then d (src + (k - dst)) else d k

/-- Read `len` bytes starting at byte offset `off`. -/
def readBytes (d : Nat → Nat) (off len : Nat) : List Nat :=
  (List.range len).map (fun k => d (off + k))

/-- The buffer behind a non-NULL handle: the bookkeeping record
(`size`, `capacity`, `typesize`, whether a destructor is set) plus the
address the handle currently has and the element-storage bytes. -/
structure CvecState where
  size : Nat
  capacity : Nat
  typesize : Nat
  hasDtor : Bool
  addr : Nat
  data : Nat → Nat

/-- The bytes of the element at slot `i`. -/
def elemAt (v : CvecState) (i : Nat) : List Nat :=
  readBytes v.data (i * v.typesize) v.typesize

/-- `cvec_get_capacity`: capacity, or 0 on a NULL handle. -/
def cvec_get_capacity : Option CvecState → Nat
  | none => 0
  | some v => v.capacity

/-- `cvec_get_sz`: size, or 0 on a NULL handle. -/
def cvec_get_sz : Option CvecState → Nat
  | none => 0
  | some v => v.size

/-- `cvec_get_type_sz`: element byte width, or 0 on a NULL handle. -/
def cvec_get_type_sz : Option CvecState → Nat
  | none => 0
  | some v => v.typesize

/-- `cvec_empty`: whether the size is 0. -/
def cvec_empty (vec : Option CvecState) : Bool :=
  cvec_get_sz vec == 0

/-- `cvec_reserve(capacity, elem_sz, destructor)`: malloc a block whose junk
contents are `mem`, zero the whole block, set the record fields.  In the
model only the element-storage part of the block is kept (`capacity * elem_sz`
bytes zeroed); the record is zero-initialised, hence `size = 0`. -/
def cvec_reserve (capacity elem_sz : Nat) (dtor : Bool) (addr : Nat)
    (mem : Nat → Nat) : CvecState :=
  { size := 0
    capacity := capacity
    typesize := elem_sz
    hasDtor := dtor
    addr := addr
    data := memset mem 0 (capacity * elem_sz) 0 }

/-- `cvec_create(elem_sz, destructor)` = `cvec_reserve(1, elem_sz, destructor)`. -/
def cvec_create (elem_sz : Nat) (dtor : Bool) (addr : Nat)
    (mem : Nat → Nat) : CvecState :=
  cvec_reserve 1 elem_sz dtor addr mem

/-- `cvec_push_back(vec, elem)`.  NULL returns NULL.  When the buffer is full
(`capacity == size`) it reallocs to `new_capacity` (1 if capacity was 0, else
`capacity*2`); `junk` gives the indeterminate bytes realloc exposes past the
old allocation and `newAddr` the address of the reallocated block.  The
source then executes `memset((uint8*)vec + capacity, 0,
(new_capacity - capacity) * elem_sz)` — note the start offset is `capacity`
bytes, exactly as written in src/cvec.h line 162.  Finally the element bytes
are `memcpy`ed into slot `size` and size is incremented. -/
def cvec_push_back (vec : Option CvecState) (elem : List Nat)
    (junk : Nat → Nat) (newAddr : Nat) : Option CvecState :=
  match vec with
  | none => none
  | some v =>
    let sz := v.size
    let cap := v.capacity
    let es := v.typesize
    if cap = sz then
      let newCap := if cap = 0 then 1 else cap * 2
      let grown : Nat → Nat := fun k => if k < cap * es then v.data k else junk k
      let zeroed := memset grown cap ((newCap - cap) * es) 0
      some { size := sz + 1
             capacity := newCap
             typesize := es
             hasDtor := v.hasDtor
             addr := newAddr
             data := memcpyIn zeroed (sz * es) elem }
    else
      some { v with size := sz + 1, data := memcpyIn v.data (sz * es) elem }

/-- `cvec_erase(vec, index)`.  Returns the mutated buffer together with the
trace of destructor invocations (the byte chunks the destructor was called
on, in order).  NULL or `index >= size` is a no-op with empty trace;
otherwise the destructor (when set) is invoked on the element at `index`,
the byte range of elements `[index+1, size)` is `memmove`d down one slot,
and size is decremented. -/
def cvec_erase (vec : Option CvecState) (index : Nat) :
    Option CvecState × List (List Nat) :=
  match vec with
  | none => (none, [])
  | some v =>
    let sz := v.size
    let es := v.typesize
    if index ≥ sz then (some v, [])
    else
      let trace := if v.hasDtor then [readBytes v.data (index * es) es] else []
      let moved := memmove v.data (index * es) ((index + 1) * es)
        ((sz - (index + 1)) * es)
      (some { v with size := sz - 1, data := moved }, trace)

/-- `cvec_free(vec)`: the trace of destructor invocations it performs before
releasing the allocation — one call per live element, indices ascending, when
a destructor is set; nothing otherwise (NULL included). -/
def cvec_free (vec : Option CvecState) : List (List Nat) :=
  match vec with
  | none => []
  | some v =>
    if v.hasDtor then
      (List.range v.size).map (fun i => readBytes v.data (i * v.typesize) v.typesize)
    else []

/-- One mutating operation of the API, with the allocator inputs a growing
push consumes. -/
inductive Op where
  | push (elem : List Nat) (junk : Nat → Nat) (newAddr : Nat)
  | erase (index : Nat)

/-- Apply one operation to a handle. -/
def runOp (vec : Option CvecState) : Op → Option CvecState
  | .push e j a => cvec_push_back vec e j a
  | .erase i => (cvec_erase vec i).1

/-- Apply a sequence of operations to a handle. -/
def run (vec : Option CvecState) (ops : List Op) : Option CvecState :=
  ops.foldl runOp vec

/-- The spec's tail-zeroing invariant: every byte of every slot with index in
`[size, capacity)` is zero. -/
def tailIsZero (v : CvecState) : Prop :=
  ∀ k, v.size * v.typesize ≤ k → k < v.capacity * v.typesize → v.data k = 0

/-- The tail-zeroing invariant lifted to handles (trivially true on NULL). -/
def optTailZero : Option CvecState → Prop
  | none => True
  | some v => tailIsZero v

/-- An operation that is a push of a 1-byte element. -/
def isPush1 : Op → Prop
  | .push e _ _ => e.length = 1
  | .erase _ => False

/-- The bytes of the element at slot `i`, lifted to handles (empty on NULL). -/
def optElemAt : Option CvecState → Nat → List Nat
  | none, _ => []
  | some v, i => elemAt v i

/-- The address a handle points at (`none` for NULL): the caller-visible
identity of the handle. -/
def handleAddr : Option CvecState → Option Nat
  | none => none
  | some v => some v.addr

/-- Auxiliary invariant for the tail-zero development: the buffer has 1-byte
elements and a zero tail. -/
def tz1 : Option CvecState → Prop
  | none => True
  | some v => v.typesize = 1 ∧ tailIsZero v

/-- Auxiliary invariant: size never exceeds capacity. -/
def szLeCap (st : Option CvecState) : Prop :=
  cvec_get_sz st ≤ cvec_get_capacity st

/-! ## Basic lemmas about the byte-map primitives -/

theorem readBytes_length (d : Nat → Nat) (off len : Nat) :
    (readBytes d off len).length = len := by
  simp [readBytes]

theorem readBytes_congr {d1 d2 : Nat → Nat} {off1 off2 : Nat} (len : Nat)
    (h : ∀ k, k < len → d1 (off1 + k) = d2 (off2 + k)) :
    readBytes d1 off1 len = readBytes d2 off2 len := by
  unfold readBytes
  apply List.map_congr_left
  intro a ha
  exact h a (List.mem_range.mp ha)

theorem memset_inside {d : Nat → Nat} {off len v k : Nat}
    (h1 : off ≤ k) (h2 : k < off + len) : memset d off len v k = v := by
  simp [memset, h1, h2]

theorem memset_outside {d : Nat → Nat} {off len v k : Nat}
    (h : k < off ∨ off + len ≤ k) : memset d off len v k = d k := by
  have hn : ¬ (off ≤ k ∧ k < off + len) := by omega
  simp [memset, hn]

theorem memcpyIn_inside {d : Nat → Nat} {off k : Nat} {src : List Nat}
    (h1 : off ≤ k) (h2 : k < off + src.length) :
    memcpyIn d off src k = src.getD (k - off) 0 := by
  simp [memcpyIn, h1, h2]

theorem memcpyIn_outside {d : Nat → Nat} {off k : Nat} {src : List Nat}
    (h : k < off ∨ off + src.length ≤ k) : memcpyIn d off src k = d k := by
  have hn : ¬ (off ≤ k ∧ k < off + src.length) := by omega
  simp [memcpyIn, hn]

theorem memmove_inside {d : Nat → Nat} {dst src len k : Nat}
    (h1 : dst ≤ k) (h2 : k < dst + len) :
    memmove d dst src len k = d (src + (k - dst)) := by
  simp [memmove, h1, h2]

theorem memmove_outside {d : Nat → Nat} {dst src len k : Nat}
    (h : k < dst ∨ dst + len ≤ k) : memmove d dst src len k = d k := by
  have hn : ¬ (dst ≤ k ∧ k < dst + len) := by omega
  simp [memmove, hn]

theorem slot_add_lt {j sz es : Nat} (k : Nat) (hj : j < sz) (hk : k < es) :
    j * es + k < sz * es := by
  calc j * es + k < j * es + es := by omega
    _ = (j + 1) * es := by ring
    _ ≤ sz * es := Nat.mul_le_mul hj (Nat.le_refl es)

theorem readBytes_memcpyIn_self (d : Nat → Nat) (off : Nat) (src : List Nat) :
    readBytes (memcpyIn d off src) off src.length = src := by
  apply List.ext_getElem
  · simp [readBytes]
  · intro i h1 h2
    simp only [readBytes, List.getElem_map, List.getElem_range]
    rw [memcpyIn_inside (Nat.le_add_right off i) (by omega),
      Nat.add_sub_cancel_left]
    exact List.getD_eq_getElem src 0 h2

/-! ## Claim theorems -/

/-- C8: on a NULL handle every operation is benign — the size, capacity and
element-size accessors return 0, `cvec_empty` is true, `cvec_push_back`
returns NULL without effect, and `cvec_erase` / `cvec_free` do nothing (no
state change, no destructor invocation). -/
theorem null_safety (e : List Nat) (j : Nat → Nat) (a i : Nat) :
    cvec_get_sz none = 0 ∧ cvec_get_capacity none = 0 ∧
    cvec_get_type_sz none = 0 ∧ cvec_empty none = true ∧
    cvec_push_back none e j a = none ∧ cvec_erase none i = (none, []) ∧
    cvec_free none = [] :=
  ⟨rfl, rfl, rfl, rfl, rfl, rfl, rfl⟩

/-- C9: `cvec_erase` with `index ≥ size` (including `index = size`) is a
strict no-op on a non-NULL handle: the whole state (size, capacity,
typesize, all bytes) is returned unchanged and the destructor trace is
empty. -/
theorem erase_oob_noop (v : CvecState) (i : Nat) (h : v.size ≤ i) :
    cvec_erase (some v) i = (some v, []) := by
  simp [cvec_erase, h]

/-- Witness for `erase_oob_noop` at `index = size` on a fresh buffer. -/
theorem erase_oob_noop_witness :
    cvec_erase (some (cvec_reserve 2 1 false 0 (fun _ => 0))) 0 =
      (some (cvec_reserve 2 1 false 0 (fun _ => 0)), []) :=
  erase_oob_noop (cvec_reserve 2 1 false 0 (fun _ => 0)) 0 (by decide)

/-- C4: appending `elem` to a non-NULL handle increments size by exactly 1
and stores `elem` byte-for-byte at the last index (`size` of the old
state). -/
theorem push_back_roundtrip (v : CvecState) (e : List Nat) (j : Nat → Nat)
    (a : Nat) (h : e.length = v.typesize) :
    cvec_get_sz (cvec_push_back (some v) e j a) = v.size + 1 ∧
    optElemAt (cvec_push_back (some v) e j a) v.size = e := by
  by_cases hc : v.capacity = v.size
  · simp only [cvec_push_back, if_pos hc]
    refine ⟨rfl, ?_⟩
    show readBytes (memcpyIn _ (v.size * v.typesize) e)
      (v.size * v.typesize) v.typesize = e
    rw [← h]
    exact readBytes_memcpyIn_self _ _ e
  · simp only [cvec_push_back, if_neg hc]
    refine ⟨rfl, ?_⟩
    show readBytes (memcpyIn v.data (v.size * v.typesize) e)
      (v.size * v.typesize) v.typesize = e
    rw [← h]
    exact readBytes_memcpyIn_self _ _ e

/-- Witness for `push_back_roundtrip` on a concrete 2-byte-element buffer. -/
theorem push_back_roundtrip_witness :
    cvec_get_sz (cvec_push_back (some (cvec_reserve 4 2 false 0 (fun _ => 9)))
        [3, 4] (fun _ => 0) 0) =
      (cvec_reserve 4 2 false 0 (fun _ => 9)).size + 1 ∧
    optElemAt (cvec_push_back (some (cvec_reserve 4 2 false 0 (fun _ => 9)))
        [3, 4] (fun _ => 0) 0)
      (cvec_reserve 4 2 false 0 (fun _ => 9)).size = [3, 4] :=
  push_back_roundtrip (cvec_reserve 4 2 false 0 (fun _ => 9)) [3, 4]
    (fun _ => 0) 0 (by decide)

/-- C10: `cvec_push_back` on a non-full buffer (`size < capacity`) does not
reallocate — the returned handle has the same address, capacity and typesize
are unchanged, size increments by 1, and every previously stored element's
bytes are unchanged. -/
theorem push_back_no_realloc (v : CvecState) (e : List Nat) (j : Nat → Nat)
    (a : Nat) (h : v.size < v.capacity) :
    handleAddr (cvec_push_back (some v) e j a) = some v.addr ∧
    cvec_get_capacity (cvec_push_back (some v) e j a) = v.capacity ∧
    cvec_get_type_sz (cvec_push_back (some v) e j a) = v.typesize ∧
    cvec_get_sz (cvec_push_back (some v) e j a) = v.size + 1 ∧
    ∀ i, i < v.size → optElemAt (cvec_push_back (some v) e j a) i = elemAt v i := by
  have hc : ¬ v.capacity = v.size := by omega
  simp only [cvec_push_back, if_neg hc]
  refine ⟨rfl, rfl, rfl, rfl, ?_⟩
  intro i hi
  show readBytes (memcpyIn v.data (v.size * v.typesize) e)
    (i * v.typesize) v.typesize = elemAt v i
  apply readBytes_congr
  intro k hk
  exact memcpyIn_outside (Or.inl (slot_add_lt k hi hk))

/-- Witness for `push_back_no_realloc` on a concrete non-full buffer. -/
theorem push_back_no_realloc_witness :
    handleAddr (cvec_push_back (some (cvec_reserve 3 1 true 7 (fun _ => 0)))
        [5] (fun _ => 2) 9) = some 7 ∧
    cvec_get_capacity (cvec_push_back (some (cvec_reserve 3 1 true 7 (fun _ => 0)))
        [5] (fun _ => 2) 9) = 3 ∧
    cvec_get_type_sz (cvec_push_back (some (cvec_reserve 3 1 true 7 (fun _ => 0)))
        [5] (fun _ => 2) 9) = 1 ∧
    cvec_get_sz (cvec_push_back (some (cvec_reserve 3 1 true 7 (fun _ => 0)))
        [5] (fun _ => 2) 9) = 0 + 1 ∧
    ∀ i, i < 0 →
      optElemAt (cvec_push_back (some (cvec_reserve 3 1 true 7 (fun _ => 0)))
        [5] (fun _ => 2) 9) i = elemAt (cvec_reserve 3 1 true 7 (fun _ => 0)) i :=
  push_back_no_realloc (cvec_reserve 3 1 true 7 (fun _ => 0)) [5]
    (fun _ => 2) 9 (by decide)

/-- C6: the growth law — `cvec_push_back` grows capacity exactly when
`size == capacity`, to 1 from capacity 0 and to `capacity*2` otherwise;
`cvec_erase` never changes capacity; no operation decreases capacity; and
from capacity 0 the capacities after 0..8 appends are
`0, 1, 2, 4, 4, 8, 8, 8, 8` (growth events produce `1, 2, 4, 8, …`). -/
theorem growth_law (v : CvecState) (e : List Nat) (j : Nat → Nat) (a i : Nat) :
    cvec_get_capacity (cvec_push_back (some v) e j a) =
      (if v.capacity = v.size then
        (if v.capacity = 0 then 1 else v.capacity * 2)
       else v.capacity) ∧
    cvec_get_capacity ((cvec_erase (some v) i).1) = v.capacity ∧
    (∀ op : Op, v.capacity ≤ cvec_get_capacity (runOp (some v) op)) ∧
    (List.range 9).map (fun n => cvec_get_capacity
        (run (some (cvec_reserve 0 1 false 0 (fun _ => 0)))
          (List.replicate n (Op.push [0] (fun _ => 0) 0)))) =
      [0, 1, 2, 4, 4, 8, 8, 8, 8] := by
  refine ⟨?_, ?_, ?_, by decide⟩
  · by_cases hc : v.capacity = v.size <;>
      simp [cvec_push_back, cvec_get_capacity, hc]
  · by_cases hi : i ≥ v.size <;> simp [cvec_erase, cvec_get_capacity, hi]
  · intro op
    cases op with
    | push e2 j2 a2 =>
      by_cases hc : v.capacity = v.size
      · simp [runOp, cvec_push_back, cvec_get_capacity, hc]
        split <;> omega
      · simp [runOp, cvec_push_back, cvec_get_capacity, hc]
    | erase i2 =>
      by_cases hi : i2 ≥ v.size <;>
        simp [runOp, cvec_erase, cvec_get_capacity, hi]

/-- C7: `cvec_free` with a destructor set invokes it exactly `size` times,
once per live element, in ascending index order (the k-th invocation
receives the bytes of element k); with no destructor set it performs no
invocation. Every invocation is part of the trace produced before the
allocation is released. -/
theorem free_cleanup_complete (v : CvecState) :
    (cvec_free (some v)).length = (if v.hasDtor then v.size else 0) ∧
    (∀ k, k < v.size → v.hasDtor = true →
      (cvec_free (some v)).getD k [] = elemAt v k) ∧
    (v.hasDtor = false → cvec_free (some v) = []) := by
  cases hd : v.hasDtor with
  | false =>
    refine ⟨by simp [cvec_free, hd], ?_, fun _ => by simp [cvec_free, hd]⟩
    intro k hk hcontra
    simp [hd] at hcontra
  | true =>
    refine ⟨by simp [cvec_free, hd], ?_, fun hcontra => by simp [hd] at hcontra⟩
    intro k hk _
    have hlen : k < ((List.range v.size).map
        (fun i => readBytes v.data (i * v.typesize) v.typesize)).length := by
      simpa using hk
    simp only [cvec_free, hd, if_pos]
    rw [List.getD_eq_getElem _ [] hlen]
    simp [elemAt, hk]

/-- Witness for `free_cleanup_complete`: a two-element 1-byte buffer with a
destructor; the second invocation receives element 1's bytes. -/
theorem free_cleanup_complete_witness :
    (cvec_free (some ⟨2, 2, 1, true, 0, fun k => k + 1⟩)).getD 1 [] =
      elemAt ⟨2, 2, 1, true, 0, fun k => k + 1⟩ 1 :=
  (free_cleanup_complete ⟨2, 2, 1, true, 0, fun k => k + 1⟩).2.1 1
    (by decide) rfl

/-- C1: evaluation of the code at the failing input.  A buffer with 2-byte
elements created by `cvec_reserve(1, 2, NULL)` holds one element `[17, 34]`;
the subsequent growing `cvec_push_back` of `[51, 68]` leaves element 0 as
`[17, 0]` — its second byte has been zeroed — because the growth `memset`
starts at byte offset `capacity` instead of `capacity * elem_sz`.  This
contradicts the claim that a growing append preserves all previously stored
element bytes. -/
theorem push_back_growth_clobbers_bytes :
    ∃ v1 v2 : CvecState,
      cvec_push_back (some (cvec_reserve 1 2 false 0 (fun _ => 9)))
          [17, 34] (fun _ => 9) 0 = some v1 ∧
      cvec_push_back (some v1) [51, 68] (fun _ => 9) 5 = some v2 ∧
      elemAt v1 0 = [17, 34] ∧
      elemAt v2 0 = [17, 0] ∧ elemAt v2 1 = [51, 68] := by
  refine ⟨_, _, rfl, rfl, ?_, ?_, ?_⟩ <;> decide

theorem szLeCap_runOp (st : Option CvecState) (op : Op) (h : szLeCap st) :
    szLeCap (runOp st op) := by
  cases st with
  | none =>
    cases op <;>
      simp [szLeCap, runOp, cvec_push_back, cvec_erase, cvec_get_sz,
        cvec_get_capacity]
  | some v =>
    cases op with
    | push e j a =>
      by_cases hc : v.capacity = v.size
      · simp only [szLeCap, runOp, cvec_push_back, if_pos hc, cvec_get_sz,
          cvec_get_capacity]
        split <;> omega
      · simp only [szLeCap, runOp, cvec_push_back, if_neg hc, cvec_get_sz,
          cvec_get_capacity] at h ⊢
        omega
    | erase i =>
      by_cases hi : i ≥ v.size
      · simpa [runOp, cvec_erase, hi] using h
      · simp only [szLeCap, runOp, cvec_erase, if_neg hi, cvec_get_sz,
          cvec_get_capacity] at h ⊢
        omega

theorem szLeCap_run (ops : List Op) :
    ∀ st : Option CvecState, szLeCap st → szLeCap (run st ops) := by
  induction ops with
  | nil => exact fun st h => h
  | cons op rest ih =>
    intro st h
    exact ih (runOp st op) (szLeCap_runOp st op h)

/-- C3: `capacity ≥ size` holds in every state reachable from a fresh
`cvec_reserve` (and hence `cvec_create`) by any sequence of `cvec_push_back`
and `cvec_erase` operations. -/
theorem capacity_ge_size_invariant (cap es : Nat) (d : Bool) (a : Nat)
    (mem : Nat → Nat) (ops : List Op) :
    cvec_get_sz (run (some (cvec_reserve cap es d a mem)) ops) ≤
      cvec_get_capacity (run (some (cvec_reserve cap es d a mem)) ops) :=
  szLeCap_run ops (some (cvec_reserve cap es d a mem)) (Nat.zero_le _)

/-- C5: erasing a valid index first hands the destructor (when set) exactly
the bytes of the element at `index` — read before any shifting — then shifts
every element formerly at `m + 1 > index` down to `m` with its bytes intact,
keeps all elements below `index` unchanged, decrements size by exactly 1,
and leaves capacity (and typesize) unchanged. -/
theorem erase_correct (v : CvecState) (i : Nat) (hi : i < v.size) :
    cvec_get_sz ((cvec_erase (some v) i).1) = v.size - 1 ∧
    cvec_get_capacity ((cvec_erase (some v) i).1) = v.capacity ∧
    cvec_get_type_sz ((cvec_erase (some v) i).1) = v.typesize ∧
    (cvec_erase (some v) i).2 = (if v.hasDtor then [elemAt v i] else []) ∧
    (∀ m, m < i → optElemAt ((cvec_erase (some v) i).1) m = elemAt v m) ∧
    (∀ m, i ≤ m → m + 1 < v.size →
      optElemAt ((cvec_erase (some v) i).1) m = elemAt v (m + 1)) := by
  have hni : ¬ i ≥ v.size := by omega
  simp only [cvec_erase, if_neg hni]
  refine ⟨rfl, rfl, rfl, rfl, ?_, ?_⟩
  · intro m hm
    show readBytes (memmove v.data (i * v.typesize) ((i + 1) * v.typesize)
        ((v.size - (i + 1)) * v.typesize)) (m * v.typesize) v.typesize
      = elemAt v m
    apply readBytes_congr
    intro k hk
    exact memmove_outside (Or.inl (slot_add_lt k hm hk))
  · intro m him hm
    show readBytes (memmove v.data (i * v.typesize) ((i + 1) * v.typesize)
        ((v.size - (i + 1)) * v.typesize)) (m * v.typesize) v.typesize
      = elemAt v (m + 1)
    apply readBytes_congr
    intro k hk
    have hle : i * v.typesize ≤ m * v.typesize :=
      Nat.mul_le_mul him (Nat.le_refl v.typesize)
    have hsum : i * v.typesize + (v.size - (i + 1)) * v.typesize
        = (v.size - 1) * v.typesize := by
      rw [← Nat.add_mul]
      congr 1
      omega
    have hlt : m * v.typesize + k < (v.size - 1) * v.typesize :=
      slot_add_lt k (by omega) hk
    rw [memmove_inside (Nat.le_trans hle (Nat.le_add_right _ k)) (by omega)]
    congr 1
    have e1 : (i + 1) * v.typesize = i * v.typesize + v.typesize :=
      Nat.succ_mul i v.typesize
    have e2 : (m + 1) * v.typesize = m * v.typesize + v.typesize :=
      Nat.succ_mul m v.typesize
    omega

/-- Witness for `erase_correct`: erasing index 1 of the four 1-byte elements
`[1], [2], [3], [4]` invokes the destructor on `[2]` and moves `[3]` down to
index 1. -/
theorem erase_correct_witness :
    (cvec_erase (some (⟨4, 4, 1, true, 0, fun k => k + 1⟩ : CvecState)) 1).2
      = (if (⟨4, 4, 1, true, 0, fun k => k + 1⟩ : CvecState).hasDtor
         then [elemAt ⟨4, 4, 1, true, 0, fun k => k + 1⟩ 1] else []) ∧
    optElemAt ((cvec_erase
        (some (⟨4, 4, 1, true, 0, fun k => k + 1⟩ : CvecState)) 1).1) 1
      = elemAt ⟨4, 4, 1, true, 0, fun k => k + 1⟩ 2 :=
  ⟨(erase_correct ⟨4, 4, 1, true, 0, fun k => k + 1⟩ 1 (by decide)).2.2.2.1,
   (erase_correct ⟨4, 4, 1, true, 0, fun k => k + 1⟩ 1 (by decide)).2.2.2.2.2
     1 (by decide) (by decide)⟩

/-- C2 counterexample: the state reached from `cvec_reserve(2, 1, NULL)` by
pushing bytes `[5]` and `[7]` and then erasing index 0 has `size = 1`,
`capacity = 2`, yet the slot at index 1 (inside `[size, capacity)`) holds
byte 7, a stale copy left behind by the erase shift — so the claimed
invariant that slots in `[size, capacity)` are zero at all times is false on
a reachable state. -/
theorem tail_zero_fails_after_erase :
    ∃ v : CvecState,
      run (some (cvec_reserve 2 1 false 0 (fun _ => 9)))
        [Op.push [5] (fun _ => 0) 0, Op.push [7] (fun _ => 0) 0, Op.erase 0]
        = some v ∧
      v.size = 1 ∧ v.capacity = 2 ∧ v.typesize = 1 ∧ ¬ tailIsZero v := by
  refine ⟨_, rfl, rfl, rfl, rfl, ?_⟩
  intro h
  exact absurd (h 1 (by decide) (by decide)) (by decide)

theorem tz1_push (st : Option CvecState) (e : List Nat) (j : Nat → Nat)
    (a : Nat) (he : e.length = 1) (h : tz1 st) :
    tz1 (cvec_push_back st e j a) := by
  cases st with
  | none => trivial
  | some v =>
    obtain ⟨ht, hz⟩ := h
    by_cases hc : v.capacity = v.size
    · simp only [cvec_push_back, if_pos hc]
      refine ⟨ht, ?_⟩
      intro k hk1 hk2
      simp only [ht, Nat.mul_one] at hk1 hk2 ⊢
      rw [memcpyIn_outside (Or.inr (by omega))]
      have hnc : v.capacity ≤ (if v.capacity = 0 then 1 else v.capacity * 2) := by
        split <;> omega
      rw [memset_inside (by omega) (by omega)]
    · simp only [cvec_push_back, if_neg hc]
      refine ⟨ht, ?_⟩
      intro k hk1 hk2
      simp only [ht, Nat.mul_one] at hk1 hk2 ⊢
      rw [memcpyIn_outside (Or.inr (by omega))]
      exact hz k (by rw [ht, Nat.mul_one]; omega) (by rw [ht, Nat.mul_one]; omega)

theorem tz1_run (ops : List Op) :
    ∀ st : Option CvecState, (∀ op ∈ ops, isPush1 op) → tz1 st →
      tz1 (run st ops) := by
  induction ops with
  | nil => exact fun st _ h => h
  | cons op rest ih =>
    intro st hops h
    have hop := hops op (List.mem_cons_self op rest)
    have hrest : ∀ op2 ∈ rest, isPush1 op2 :=
      fun op2 hm => hops op2 (List.mem_cons_of_mem op hm)
    cases op with
    | push e j a => exact ih (runOp st (.push e j a)) hrest (tz1_push st e j a hop h)
    | erase i => exact absurd hop (fun hf => hf)

/-- C2 amended: the tail-zero property does hold after creation and is
preserved by appends of 1-byte elements — every state reachable from
`cvec_reserve(cap, 1, …)` by `cvec_push_back` operations alone (no erase)
has zero bytes in all slots of `[size, capacity)`.  The original claim fails
both for `cvec_erase` (it never re-zeroes the vacated slot, see the
counterexample) and for growing appends with `elem_sz > 1` (the growth
`memset` zeroes the wrong byte range, see `push_back_growth_clobbers_bytes`). -/
theorem tail_zero_pushes_only (cap : Nat) (d : Bool) (a : Nat)
    (mem : Nat → Nat) (ops : List Op) (hops : ∀ op ∈ ops, isPush1 op) :
    optTailZero (run (some (cvec_reserve cap 1 d a mem)) ops) := by
  have h0 : tz1 (some (cvec_reserve cap 1 d a mem)) := by
    refine ⟨rfl, ?_⟩
    intro k hk1 hk2
    exact memset_inside (Nat.zero_le k) (by simpa [cvec_reserve] using hk2)
  have h := tz1_run ops (some (cvec_reserve cap 1 d a mem)) hops h0
  cases hrun : run (some (cvec_reserve cap 1 d a mem)) ops with
  | none => trivial
  | some w =>
    rw [hrun] at h
    exact h.2

/-- Witness for `tail_zero_pushes_only`: one 1-byte push into a fresh
3-capacity buffer. -/
theorem tail_zero_pushes_only_witness :
    optTailZero (run (some (cvec_reserve 3 1 false 0 (fun _ => 7)))
      [Op.push [5] (fun _ => 2) 0]) :=
  tail_zero_pushes_only 3 false 0 (fun _ => 7) [Op.push [5] (fun _ => 2) 0]
    (by
      intro op hop
      rw [List.mem_singleton] at hop
      subst hop
      exact rfl)

end Cvec
